import Mathlib

/-!
# Clock-driven scheduling with CP Optimizer

Verification development for
`src/clock-driven-scheduling/cpoptimizer/clock_driven_scheduling_cp.cc`.

The program declares a job set in four global `std::map` tables, builds a
constraint model with one fixed-size interval variable per job, hands the model
to the external solver and prints either the start times or `Infeasible.`.

The embedding follows the source: `std::map` is a key-ordered association list
with the inserting `operator[]`, `enum jobs` is its underlying integer value,
the globals are threaded through `main` as explicit state, and the external
solver is an argument of `main`.
-/

namespace ClockDrivenSchedulingCP

/-! ## `std::map` with integer-valued keys -/

/-- Contents of a `std::map<enum jobs, V>`: its entries in increasing key order. -/
abbrev StdMap (V : Type) := List (Nat × V)

namespace StdMap

/-- Lookup without insertion (`std::map::find`). -/
def find {V : Type} (m : StdMap V) (k : Nat) : Option V :=
  List.lookup k m

/-- Insertion that keeps an existing entry (`std::map::insert`): the entry is
placed at its position in key order, and nothing changes when the key is
already present. -/
def insert {V : Type} : StdMap V → Nat → V → StdMap V
  | [], k, v => [(k, v)]
  | (k0, v0) :: rest, k, v =>
    if k < k0 then (k, v) :: (k0, v0) :: rest
    else if k = k0 then (k0, v0) :: rest
    else (k0, v0) :: insert rest k v

/-- Construction from an initializer list: the entries are inserted one by one. -/
def ofList {V : Type} (init : List (Nat × V)) : StdMap V :=
  init.foldl (fun m kv => insert m kv.1 kv.2) []

/-- The call `m[k]` of `std::map::operator[]`: when `k` is a key the mapped value
is returned and the map is unchanged; otherwise the value-initialised `dflt`
(`0` for `int`, the empty string for `std::string`) is inserted under `k` and
returned. The result is the value together with the map after the call. -/
def index {V : Type} (m : StdMap V) (k : Nat) (dflt : V) : V × StdMap V :=
  match find m k with
  | some v => (v, m)
  | none => (dflt, insert m k dflt)

/-- The value `m[k]` evaluates to. -/
def get {V : Type} (m : StdMap V) (k : Nat) (dflt : V) : V :=
  (index m k dflt).1

/-- The keys of the map, in order. -/
def keys {V : Type} (m : StdMap V) : List Nat :=
  m.map Prod.fst

end StdMap

/-! ## The job set declared in the source -/

/-- The constant `const unsigned int nbJobs = 10;`. -/
def nbJobs : Nat := 10

/-- The unscoped enumeration `enum jobs`, represented by its underlying value:
the enumerators are numbered from `0` in declaration order, and the cast
`(enum jobs) (i)` of `main` keeps the value `i`. -/
abbrev jobs := Nat

def J11 : jobs := 0
def J12 : jobs := 1
def J13 : jobs := 2
def J14 : jobs := 3
def J15 : jobs := 4
def J21 : jobs := 5
def J22 : jobs := 6
def J23 : jobs := 7
def J31 : jobs := 8
def J32 : jobs := 9

/-- The enumerators of `enum jobs` in declaration order. -/
def enumerators : List jobs := [J11, J12, J13, J14, J15, J21, J22, J23, J31, J32]

/-- Job names for printing. -/
def jobnames : StdMap String := StdMap.ofList [
  (J11, "J11"),
  (J12, "J12"),
  (J13, "J13"),
  (J14, "J14"),
  (J15, "J15"),
  (J21, "J21"),
  (J22, "J22"),
  (J23, "J23"),
  (J31, "J31"),
  (J32, "J32")]

/-- Release times for each job. -/
def releasetimes : StdMap Int := StdMap.ofList [
  (J11, 0),
  (J12, 6),
  (J13, 12),
  (J14, 18),
  (J15, 24),
  (J21, 0),
  (J22, 12),
  (J23, 24),
  (J31, 0),
  (J32, 18)]

/-- Deadlines for each job. -/
def deadlines : StdMap Int := StdMap.ofList [
  (J11, 0+6),
  (J12, 6+6),
  (J13, 12+6),
  (J14, 18+6),
  (J15, 24+6),
  (J21, 0+12),
  (J22, 12+12),
  (J23, 24+12),
  (J31, 0+18),
  (J32, 18+18)]

/-- Execution times for each job. -/
def executiontimes : StdMap Int := StdMap.ofList [
  (J11, 2),
  (J12, 2),
  (J13, 2),
  (J14, 2),
  (J15, 2),
  (J21, 3),
  (J22, 3),
  (J23, 3),
  (J31, 4),
  (J32, 4)]

/-! ## The header comment: periodic tasks and hyperperiod -/

/-- A periodic task `(period/deadline, execution time)` of the header comment. -/
structure Task where
  period : Nat
  exec : Nat
deriving DecidableEq

/-- Task `T1 = (6,2)`. -/
def T1 : Task := ⟨6, 2⟩
/-- Task `T2 = (12,3)`. -/
def T2 : Task := ⟨12, 3⟩
/-- Task `T3 = (18,4)`. -/
def T3 : Task := ⟨18, 4⟩

/-- The hyperperiod of the header comment, `Hyperperiod: 36`. -/
def hyperperiod : Nat := 36

/-- The jobs of each task, after the comment on `enum jobs`
("J12 is second job of first task"): `Jtk` is job `k` of task `t`. -/
def jobsOfTask : Nat → List jobs
  | 1 => [J11, J12, J13, J14, J15]
  | 2 => [J21, J22, J23]
  | 3 => [J31, J32]
  | _ => []

/-! ## The CP Optimizer objects used by `main` -/

/-- Modelled from the spec: `IloIntervalVar` of `ilcp/cp.h`, which is not part of
the repository. A job is a fixed-duration interval: `ivar(env, sz)` is a present
interval of size `sz`, so its end is its start plus `sz`. `id` is the number of
interval variables created before it (its identity), `size` its duration. -/
structure IloIntervalVar where
  id : Nat
  size : Int
deriving DecidableEq

/-- Modelled from the spec: the three constraint shapes `main` adds to the
`IloModel` (`ilcp/cp.h` is not part of the repository): `IloStartOf(v) >= c`,
`IloEndOf(v) <= c` and `IloNoOverlap(env, vs)`. -/
inductive IloConstraint where
  | startGe (v : IloIntervalVar) (c : Int)
  | endLe (v : IloIntervalVar) (c : Int)
  | noOverlap (vs : List IloIntervalVar)
deriving DecidableEq

/-- An assignment of a start time to every interval variable, by identity. -/
abbrev Assignment := Nat → Int

/-- Modelled from the spec: `IloStartOf`, the start of the interval. -/
def IloStartOf (s : Assignment) (v : IloIntervalVar) : Int := s v.id

/-- Modelled from the spec: `IloEndOf`, the completion time `start + duration`. -/
def IloEndOf (s : Assignment) (v : IloIntervalVar) : Int := s v.id + v.size

/-- Modelled from the spec: two intervals do not overlap when one of them is
completed no later than the other starts. -/
def before (s : Assignment) (a b : IloIntervalVar) : Prop :=
  IloEndOf s a ≤ IloStartOf s b

instance (s : Assignment) (a b : IloIntervalVar) : Decidable (before s a b) :=
  inferInstanceAs (Decidable (_ ≤ _))

/-- Modelled from the spec: when an assignment satisfies a constraint. The
no-overlap constraint orders every two intervals of the array. -/
def IloConstraint.holds (s : Assignment) : IloConstraint → Prop
  | .startGe v c => c ≤ IloStartOf s v
  | .endLe v c => IloEndOf s v ≤ c
  | .noOverlap vs => vs.Pairwise (fun a b => before s a b ∨ before s b a)

instance (s : Assignment) (c : IloConstraint) : Decidable (c.holds s) := by
  cases c <;> unfold IloConstraint.holds <;> infer_instance

/-- An assignment is a solution of a model when it satisfies all its constraints. -/
def satisfies (s : Assignment) (model : List IloConstraint) : Prop :=
  ∀ c ∈ model, c.holds s

instance (s : Assignment) (model : List IloConstraint) : Decidable (satisfies s model) :=
  inferInstanceAs (Decidable (∀ c ∈ model, c.holds s))

/-- What the calls `cp.getValue(IloStartOf(v))` of the printing loop deliver, by
the identity of `v`: the start time of the interval, or `none` when the call
raises an `IloException`. The library is external, so this is part of the
solver's answer that `main` takes as an argument. -/
abbrev Values := Nat → Option Int

/-- The call `cp.getValue(IloStartOf(v))`. -/
def getValue (g : Values) (v : IloIntervalVar) : Option Int := g v.id

/-- What `IloCP cp(model); cp.solve()` delivers to `main`: the answer `true`,
after which `cp.getValue` is called once per job and each call returns a start
time or raises an `IloException`; the answer `false`; or an `IloException`
raised before any answer. The solver is external; `main` takes it as an
argument. -/
inductive IloCPResult where
  | solved (g : Values)
  | failed
  | threw

/-! ## `main` -/

/-- The program state `main` works on: the four global tables, the model and the
array `jobexecintervals` of (possibly still empty) handles. -/
structure State where
  jobnames : StdMap String
  releasetimes : StdMap Int
  deadlines : StdMap Int
  executiontimes : StdMap Int
  model : List IloConstraint
  jobexecintervals : List (Option IloIntervalVar)

/-- State at the start of the first loop: an empty `IloModel` and
`IloIntervalVarArray jobexecintervals(env, n)`, an array of `n` empty handles. -/
def State.init (n : Nat) (names : StdMap String) (rel dl ex : StdMap Int) : State :=
  { jobnames := names, releasetimes := rel, deadlines := dl, executiontimes := ex,
    model := [], jobexecintervals := List.replicate n none }

/-- Body of the first loop of `main` for index `i`: one interval variable with
the job's execution time, stored at `jobexecintervals[i]`, and the release and
deadline constraints added to the model. The loop creates one variable per pass,
so the variable of pass `i` has identity `i`. Every table access is an
`operator[]` call and leaves its map behind. -/
def addJob (st : State) (i : Nat) : State :=
  let e := st.executiontimes.index i 0
  let ivar : IloIntervalVar := ⟨i, e.1⟩
  let r := st.releasetimes.index i 0
  let d := st.deadlines.index i 0
  { st with
    executiontimes := e.2
    releasetimes := r.2
    deadlines := d.2
    jobexecintervals := st.jobexecintervals.set i (some ivar)
    model := st.model ++ [IloConstraint.startGe ivar r.1, IloConstraint.endLe ivar d.1] }

/-- The first loop: `for (unsigned int i = 0; i < n; i++)`. -/
def addJobs (n : Nat) (st : State) : State :=
  (List.range n).foldl addJob st

/-- The interval variables behind an array of handles; `none` when a handle is
still empty. -/
def handles : List (Option IloIntervalVar) → Option (List IloIntervalVar)
  | [] => some []
  | none :: _ => none
  | some v :: rest => (handles rest).map (fun vs => v :: vs)

/-- The state after `model.add(IloNoOverlap(env, jobexecintervals))`; `none` when
the array still has an empty handle. -/
def addNoOverlap (st : State) : Option State :=
  (handles st.jobexecintervals).map
    (fun vs => { st with model := st.model ++ [IloConstraint.noOverlap vs] })

/-- What is written to the output stream: the header `Job start times:`, a
complete entry `name = start`, an entry cut short after `name = ` because the
call of `cp.getValue` raised an exception, the line `Infeasible.`, and the line
`Caught: ...` of the exception handler. -/
inductive Line where
  | header
  | entry (name : String) (start : Int)
  | unfinished (name : String)
  | infeasible
  | caught
deriving DecidableEq

/-- The printing loop `for (unsigned int i = 0; i < n; i++)` inside the `try`
block, over the indices still to come. Each pass evaluates
`std::cout << jobnames[i] << " = " << cp.getValue(IloStartOf(jobexecintervals[i]))`
from left to right: the name `jobnames[i]` is looked up and written, then
`cp.getValue` is called. When the call returns, the entry is complete and the
loop goes on; when it raises an `IloException` the loop is left at once, with
what was written so far. The result is the table `jobnames` after the calls of
`operator[]`, the output, and whether an exception left the loop; `none` when
the handle is empty or `i` is outside the array. -/
def printJobs (g : Values) (arr : List (Option IloIntervalVar)) :
    List Nat → StdMap String → List Line → Option (StdMap String × List Line × Bool)
  | [], names, out => some (names, out, false)
  | i :: rest, names, out =>
    match arr[i]? with
    | some (some v) =>
      match getValue g v with
      | some x =>
        printJobs g arr rest (names.index i "").2 (out ++ [Line.entry (names.index i "").1 x])
      | none =>
        some ((names.index i "").2, out ++ [Line.unfinished (names.index i "").1], true)
    | _ => none

/-- What a run of `main` does that can be observed: the call of the solver on the
model, and the lines written. -/
inductive Event where
  | solve (model : List IloConstraint)
  | print (l : Line)
deriving DecidableEq

/-- The lines a run writes, in order. -/
def printed : List Event → List Line
  | [] => []
  | Event.print l :: rest => l :: printed rest
  | Event.solve _ :: rest => printed rest

/-- The `(job name, start time)` entries among the lines. -/
def entries : List Line → List (String × Int)
  | [] => []
  | Line.entry nm v :: rest => (nm, v) :: entries rest
  | _ :: rest => entries rest

/-- The model `main` hands to the solver for `n` jobs and the given tables. -/
def buildModel (n : Nat) (names : StdMap String) (rel dl ex : StdMap Int) :
    Option (List IloConstraint) :=
  (addNoOverlap (addJobs n (State.init n names rel dl ex))).map State.model

/-- The body of `main` for `n` jobs and the given global tables, with the solver
`cp` as an argument. The whole body is inside `try`: an `IloException`, raised by
the solver or by a call of `cp.getValue` in the printing loop, ends it and the
handler writes its line after what was written before. The result is the final
state of the tables together with the observable events; `none` when an empty
handle would be used. -/
def run (n : Nat) (names : StdMap String) (rel dl ex : StdMap Int)
    (cp : List IloConstraint → IloCPResult) : Option (State × List Event) :=
  match addNoOverlap (addJobs n (State.init n names rel dl ex)) with
  | none => none
  | some st =>
    match cp st.model with
    | IloCPResult.solved g =>
      match printJobs g st.jobexecintervals (List.range n) st.jobnames [Line.header] with
      | none => none
      | some (names1, out, thrown) =>
        some ({ st with jobnames := names1 },
              Event.solve st.model ::
                (if thrown then out ++ [Line.caught] else out).map Event.print)
    | IloCPResult.failed =>
      some (st, [Event.solve st.model, Event.print Line.infeasible])
    | IloCPResult.threw =>
      some (st, [Event.solve st.model, Event.print Line.caught])

/-- The program: `main` on the global tables of the source. -/
def main (cp : List IloConstraint → IloCPResult) : Option (State × List Event) :=
  run nbJobs jobnames releasetimes deadlines executiontimes cp

/-! ## Closed form of the model -/

/-- The interval variable `main` creates for job `i`. -/
def jobVar (ex : StdMap Int) (i : Nat) : IloIntervalVar :=
  ⟨i, ex.get i 0⟩

/-- The two constraints the first loop adds for job `i`. -/
def jobConstraints (rel dl ex : StdMap Int) (i : Nat) : List IloConstraint :=
  [IloConstraint.startGe (jobVar ex i) (rel.get i 0),
   IloConstraint.endLe (jobVar ex i) (dl.get i 0)]

/-- The model after both loops, written out. -/
def modelOf (n : Nat) (rel dl ex : StdMap Int) : List IloConstraint :=
  (List.range n).flatMap (jobConstraints rel dl ex)
    ++ [IloConstraint.noOverlap ((List.range n).map (jobVar ex))]

/-- The release, deadline and no-overlap conditions of the job set, stated on
the tables: what a solution of the model has to satisfy. -/
def feasible (n : Nat) (rel dl ex : StdMap Int) (s : Assignment) : Prop :=
  (∀ i, i < n → rel.get i 0 ≤ s i ∧ s i + ex.get i 0 ≤ dl.get i 0) ∧
  (∀ i, i < n → ∀ j, j < n → i ≠ j →
    s i + ex.get i 0 ≤ s j ∨ s j + ex.get j 0 ≤ s i)

instance (n : Nat) (rel dl ex : StdMap Int) (s : Assignment) :
    Decidable (feasible n rel dl ex s) :=
  inferInstanceAs (Decidable (_ ∧ _))

/-- The lines of the printing loop over the indices `l`, written out: complete
entries up to the first job whose `cp.getValue` call raises an exception, then
the entry cut short and the handler's line. -/
def entryLines (names : StdMap String) (g : Values) : List Nat → List Line
  | [] => []
  | i :: rest =>
    match g i with
    | some x => Line.entry (names.get i "") x :: entryLines names g rest
    | none => [Line.unfinished (names.get i ""), Line.caught]

/-- The events of a run of `main`, written out: the call of the solver, then
the lines that depend on its answer. -/
def eventsOf (n : Nat) (names : StdMap String) (model : List IloConstraint)
    (r : IloCPResult) : List Event :=
  Event.solve model ::
    match r with
    | IloCPResult.solved g =>
      (Line.header :: entryLines names g (List.range n)).map Event.print
    | IloCPResult.failed => [Event.print Line.infeasible]
    | IloCPResult.threw => [Event.print Line.caught]

/-- Job `k` (counted from 1) of task `t`: the enumerator `Jtk`, when there is one. -/
def job (t k : Nat) : Option jobs :=
  if k = 0 then none else (jobsOfTask t)[k - 1]?

/-- The number of jobs of task `t` whose release time in `releasetimes` is `r`. -/
def jobsReleasedAt (t : Nat) (r : Int) : Nat :=
  ((jobsOfTask t).filter (fun j => releasetimes.find j = some r)).length

/-! ## The pairwise deduction of the spec -/

/-- Modelled from the spec: the `Domain` of a job (§3), the current bounds on its
start time. The Domain Store and the No-Overlap Propagator are not in the
source, where the external solver does the propagation. -/
structure Domain where
  earliest_start : Int
  latest_start : Int
deriving DecidableEq

/-- Modelled from the spec: a start time within the bounds of the domain
(an inclusive bound pair). -/
def Domain.admits (d : Domain) (t : Int) : Prop :=
  d.earliest_start ≤ t ∧ t ≤ d.latest_start

instance (d : Domain) (t : Int) : Decidable (d.admits t) :=
  inferInstanceAs (Decidable (_ ∧ _))

/-- Modelled from the spec: the test of step 1 of the No-Overlap Propagator (§4.3)
on a job `x` with domain `dx` against a job with domain `dy`:
`earliest_start(x) + duration(x) > latest_start(y)`. -/
def exceeds (x : IloIntervalVar) (dx dy : Domain) : Prop :=
  dx.earliest_start + x.size > dy.latest_start

instance (x : IloIntervalVar) (dx dy : Domain) : Decidable (exceeds x dx dy) :=
  inferInstanceAs (Decidable (_ > _))

/-- Modelled from the spec: the propagation of step 1 (§4.3) once "A precedes B"
is deduced: `latest_start(A) = min(latest_start(A), latest_start(B) - duration(A))`
and `earliest_start(B) = max(earliest_start(B), earliest_start(A) + duration(A))`.
The result is the new domains of A and B. -/
def propagatePrecedes (a : IloIntervalVar) (da db : Domain) : Domain × Domain :=
  ({ da with latest_start := min da.latest_start (db.latest_start - a.size) },
   { db with earliest_start := max db.earliest_start (da.earliest_start + a.size) })

/-! ## Concrete inputs -/

/-- Tables of the spec's boundary case of two jobs with release `0`, deadline `2`
and duration `2`. -/
def twoJobsNames : StdMap String := StdMap.ofList [(0, "A"), (1, "B")]
def twoJobsRelease : StdMap Int := StdMap.ofList [(0, 0), (1, 0)]
def twoJobsDeadline : StdMap Int := StdMap.ofList [(0, 2), (1, 2)]
def twoJobsExecution : StdMap Int := StdMap.ofList [(0, 2), (1, 2)]

/-- Tables of the spec's boundary case of a single job with release `5`,
deadline `5` and duration `1`. -/
def oneJobNames : StdMap String := StdMap.ofList [(0, "A")]
def oneJobRelease : StdMap Int := StdMap.ofList [(0, 5)]
def oneJobDeadline : StdMap Int := StdMap.ofList [(0, 5)]
def oneJobExecution : StdMap Int := StdMap.ofList [(0, 1)]

/-- A solver that answers `false` on every model. -/
def alwaysFails : List IloConstraint → IloCPResult :=
  fun _ => IloCPResult.failed

/-- A solver that answers `true` and delivers the start times `edfStarts`. -/
def solvesEdf : List IloConstraint → IloCPResult :=
  fun _ => IloCPResult.solved
    (fun i => some (([0, 9, 12, 18, 24, 2, 14, 26, 5, 20] : List Int).getD i 0))

/-- A solver that answers `true` and delivers the same start times for `J11`,
`J12` and `J13`, while the call of `cp.getValue` for `J14` raises an exception. -/
def throwsAtJ14 : List IloConstraint → IloCPResult :=
  fun _ => IloCPResult.solved
    (fun i => if i < 3 then some (([0, 9, 12] : List Int).getD i 0) else none)

/-- Two jobs of duration `2`. -/
def jobA : IloIntervalVar := ⟨0, 2⟩
def jobB : IloIntervalVar := ⟨1, 2⟩

/-- Start times with `jobB` at `0` and `jobA` at `5`. -/
def startsBA : Assignment := fun i => if i = 0 then 5 else 0

/-- Start times with `jobA` at `0` and `jobB` at `5`. -/
def startsAB : Assignment := fun i => if i = 0 then 0 else 5

/-- Start times of an earliest-deadline-first schedule of the ten jobs of the
source, indexed like `enum jobs`. -/
def edfStarts : Assignment :=
  fun i => ([0, 9, 12, 18, 24, 2, 14, 26, 5, 20] : List Int).getD i 0

/-! ## Lemmas on `std::map` -/

namespace StdMap

theorem find_nil {V : Type} (k : Nat) : find ([] : StdMap V) k = none := rfl

theorem find_cons {V : Type} (k0 : Nat) (v0 : V) (rest : StdMap V) (k1 : Nat) :
    find ((k0, v0) :: rest) k1 = if k1 = k0 then some v0 else find rest k1 := by
  unfold find
  by_cases hk : k1 = k0
  · subst hk
    simp [List.lookup]
  · have hb : (k1 == k0) = false := by simpa using hk
    simp [List.lookup, hb, hk]

theorem find_insert_of_absent {V : Type} (m : StdMap V) (k : Nat) (v : V)
    (h : find m k = none) (k1 : Nat) :
    find (insert m k v) k1 = if k1 = k then some v else find m k1 := by
  induction m with
  | nil => simp [insert, find_cons, find_nil]
  | cons e rest ih =>
    obtain ⟨k0, v0⟩ := e
    rw [find_cons] at h
    have hne : k ≠ k0 := by
      intro hk
      simp [hk] at h
    have hrest : find rest k = none := by simpa [hne] using h
    unfold insert
    by_cases hlt : k < k0
    · simp only [hlt, if_true, find_cons]
    · simp only [hlt, if_false, hne, find_cons, ih hrest]
      by_cases hk0 : k1 = k0
      · have hk : k1 ≠ k := by rw [hk0]; exact fun h => hne h.symm
        simp [hk0, hk, Ne.symm hne]
      · simp [hk0]

theorem get_eq {V : Type} (m : StdMap V) (k : Nat) (dflt : V) :
    get m k dflt = (find m k).getD dflt := by
  unfold get index
  cases find m k <;> rfl

theorem get_index {V : Type} (m : StdMap V) (k : Nat) (dflt : V) (k1 : Nat) :
    get (index m k dflt).2 k1 dflt = get m k1 dflt := by
  cases h : find m k with
  | some v => simp [index, h]
  | none =>
    have h1 : (index m k dflt).2 = insert m k dflt := by simp [index, h]
    rw [h1, get_eq, get_eq, find_insert_of_absent m k dflt h k1]
    by_cases hk : k1 = k
    · subst hk
      simp [h]
    · simp [hk]

end StdMap

/-! ## The two loops of `main` -/

theorem addJobs_succ (i : Nat) (st : State) :
    addJobs (i + 1) st = addJob (addJobs i st) i := by
  simp [addJobs, List.range_succ, List.foldl_append]

theorem addJobs_inv (N : Nat) (names : StdMap String) (rel dl ex : StdMap Int) (i : Nat)
    (hi : i ≤ N) :
    (addJobs i (State.init N names rel dl ex)).jobnames = names ∧
    (∀ k, (addJobs i (State.init N names rel dl ex)).releasetimes.get k 0 = rel.get k 0) ∧
    (∀ k, (addJobs i (State.init N names rel dl ex)).deadlines.get k 0 = dl.get k 0) ∧
    (∀ k, (addJobs i (State.init N names rel dl ex)).executiontimes.get k 0 = ex.get k 0) ∧
    (addJobs i (State.init N names rel dl ex)).model
      = (List.range i).flatMap (jobConstraints rel dl ex) ∧
    (addJobs i (State.init N names rel dl ex)).jobexecintervals
      = (List.range i).map (fun j => some (jobVar ex j)) ++ List.replicate (N - i) none := by
  induction i with
  | zero => simp [addJobs, State.init]
  | succ i ih =>
    obtain ⟨h1, h2, h3, h4, h5, h6⟩ := ih (Nat.le_of_succ_le hi)
    rw [addJobs_succ]
    refine ⟨?_, ?_, ?_, ?_, ?_, ?_⟩
    · simpa [addJob] using h1
    · intro k
      simp only [addJob]
      rw [StdMap.get_index, h2]
    · intro k
      simp only [addJob]
      rw [StdMap.get_index, h3]
    · intro k
      simp only [addJob]
      rw [StdMap.get_index, h4]
    · simp only [addJob]
      rw [h5, List.range_succ, List.flatMap_append]
      have e2 := h2 i
      have e3 := h3 i
      have e4 := h4 i
      simp only [StdMap.get] at e2 e3 e4
      simp [jobConstraints, jobVar, StdMap.get, e2, e3, e4]
    · simp only [addJob]
      rw [h6, List.range_succ, List.map_append]
      have e4 := h4 i
      simp only [StdMap.get] at e4
      have hN : N - i = (N - (i + 1)) + 1 := by omega
      rw [hN, List.replicate_succ, List.set_append_right _ _ (by simp)]
      simp [jobVar, StdMap.get, e4]

theorem handles_map_some (vs : List IloIntervalVar) :
    handles (vs.map some) = some vs := by
  induction vs with
  | nil => rfl
  | cons v rest ih => simp [handles, ih]

theorem addJobs_full (n : Nat) (names : StdMap String) (rel dl ex : StdMap Int) :
    (addJobs n (State.init n names rel dl ex)).jobnames = names ∧
    (addJobs n (State.init n names rel dl ex)).model
      = (List.range n).flatMap (jobConstraints rel dl ex) ∧
    (addJobs n (State.init n names rel dl ex)).jobexecintervals
      = ((List.range n).map (jobVar ex)).map some := by
  obtain ⟨h1, _, _, _, h5, h6⟩ := addJobs_inv n names rel dl ex n (Nat.le_refl n)
  refine ⟨h1, h5, ?_⟩
  rw [h6]
  simp

theorem addNoOverlap_addJobs (n : Nat) (names : StdMap String) (rel dl ex : StdMap Int) :
    ∃ st, addNoOverlap (addJobs n (State.init n names rel dl ex)) = some st ∧
      st.jobnames = names ∧ st.model = modelOf n rel dl ex ∧
      st.jobexecintervals = ((List.range n).map (jobVar ex)).map some := by
  obtain ⟨h1, h5, h6⟩ := addJobs_full n names rel dl ex
  refine ⟨{ addJobs n (State.init n names rel dl ex) with
            model := (addJobs n (State.init n names rel dl ex)).model
              ++ [IloConstraint.noOverlap ((List.range n).map (jobVar ex))] }, ?_, h1, ?_, h6⟩
  · simp only [addNoOverlap, h6, handles_map_some, Option.map_some']
  · simp [modelOf, h5]

theorem buildModel_eq (n : Nat) (names : StdMap String) (rel dl ex : StdMap Int) :
    buildModel n names rel dl ex = some (modelOf n rel dl ex) := by
  obtain ⟨st, h, _, hm, _⟩ := addNoOverlap_addJobs n names rel dl ex
  simp [buildModel, h, hm]

theorem printed_map_print (l : List Line) : printed (l.map Event.print) = l := by
  induction l with
  | nil => rfl
  | cons x rest ih => simp [printed, ih]

theorem entryLines_congr (names1 names : StdMap String) (g : Values)
    (h : ∀ k, names1.get k "" = names.get k "") (l : List Nat) :
    entryLines names1 g l = entryLines names g l := by
  induction l with
  | nil => rfl
  | cons i rest ih =>
    simp only [entryLines, h i, ih]

theorem entryLines_of_values (names : StdMap String) (g : Values) (s : Assignment)
    (l : List Nat) (h : ∀ j, j ∈ l → g j = some (s j)) :
    entryLines names g l = l.map (fun j => Line.entry (names.get j "") (s j)) := by
  induction l with
  | nil => rfl
  | cons i rest ih =>
    have hi := h i (List.mem_cons_self i rest)
    have hr := ih (fun j hj => h j (List.mem_cons_of_mem i hj))
    simp only [entryLines, hi, hr, List.map_cons]

theorem entryLines_interrupted (names : StdMap String) (g : Values) (k : Nat)
    (hk : g k = none) (l2 : List Nat) (l1 : List Nat)
    (h : ∀ j, j ∈ l1 → ∃ x, g j = some x) :
    (entries (entryLines names g (l1 ++ k :: l2))).length = l1.length ∧
    (entryLines names g (l1 ++ k :: l2)).getLast? = some Line.caught := by
  induction l1 with
  | nil => simp [entryLines, hk, entries]
  | cons i rest ih =>
    obtain ⟨x, hx⟩ := h i (List.mem_cons_self i rest)
    obtain ⟨h1, h2⟩ := ih (fun j hj => h j (List.mem_cons_of_mem i hj))
    have e : (i :: rest) ++ k :: l2 = i :: (rest ++ k :: l2) := rfl
    rw [e]
    generalize rest ++ k :: l2 = m at h1 h2
    have e2 : entryLines names g (i :: m)
        = Line.entry (names.get i "") x :: entryLines names g m := by
      simp only [entryLines, hx]
    rw [e2]
    refine ⟨?_, ?_⟩
    · simp only [entries, List.length_cons, h1]
    · rw [List.getLast?_cons, h2]
      rfl

theorem printJobs_eq (n : Nat) (g : Values) (ex : StdMap Int) :
    ∀ (l : List Nat) (names : StdMap String) (out : List Line), (∀ i, i ∈ l → i < n) →
      ∃ names1 out1 thrown,
        printJobs g (((List.range n).map (jobVar ex)).map some) l names out
          = some (names1, out1, thrown) ∧
        (if thrown then out1 ++ [Line.caught] else out1) = out ++ entryLines names g l ∧
        (∀ k, names1.get k "" = names.get k "") ∧
        ((∀ i, i ∈ l → (names.index i "").2 = names) → names1 = names) := by
  intro l
  induction l with
  | nil =>
    intro names out _
    exact ⟨names, out, false, rfl, by simp [entryLines], fun _ => rfl, fun _ => rfl⟩
  | cons i rest ih =>
    intro names out hl
    have hi : i < n := hl i (List.mem_cons_self i rest)
    have harr : (((List.range n).map (jobVar ex)).map some)[i]? = some (some (jobVar ex i)) := by
      simp [hi]
    cases hg : g i with
    | none =>
      refine ⟨(names.index i "").2, out ++ [Line.unfinished (names.index i "").1], true,
        ?_, ?_, ?_, ?_⟩
      · simp only [printJobs, harr, getValue, jobVar, hg]
      · simp [entryLines, hg, StdMap.get]
      · intro k
        exact StdMap.get_index names i "" k
      · intro h
        exact h i (List.mem_cons_self i rest)
    | some x =>
      obtain ⟨names1, out1, thrown, h1, h2, h3, h4⟩ :=
        ih (names.index i "").2 (out ++ [Line.entry (names.index i "").1 x])
          (fun j hj => hl j (List.mem_cons_of_mem i hj))
      refine ⟨names1, out1, thrown, ?_, ?_, ?_, ?_⟩
      · simp only [printJobs, harr, getValue, jobVar, hg, h1]
      · rw [h2, entryLines_congr (names.index i "").2 names g
          (fun k => StdMap.get_index names i "" k)]
        simp [entryLines, hg, StdMap.get]
      · intro k
        rw [h3, StdMap.get_index]
      · intro h
        have hh := h i (List.mem_cons_self i rest)
        rw [hh] at h4
        exact h4 (fun j hj => h j (List.mem_cons_of_mem i hj))

theorem run_eq (n : Nat) (names : StdMap String) (rel dl ex : StdMap Int)
    (cp : List IloConstraint → IloCPResult) :
    ∃ st, run n names rel dl ex cp
        = some (st, eventsOf n names (modelOf n rel dl ex) (cp (modelOf n rel dl ex))) ∧
      ∀ k, st.jobnames.get k "" = names.get k "" := by
  obtain ⟨st, h, hn, hm, ha⟩ := addNoOverlap_addJobs n names rel dl ex
  unfold run
  rw [h]
  simp only [hm]
  cases hcp : cp (modelOf n rel dl ex) with
  | solved g =>
    obtain ⟨names1, out1, thrown, hp, ho, hk, _⟩ :=
      printJobs_eq n g ex (List.range n) st.jobnames [Line.header]
        (fun i hi => List.mem_range.mp hi)
    simp only [ha, hp]
    refine ⟨{ jobnames := names1, releasetimes := st.releasetimes, deadlines := st.deadlines,
              executiontimes := st.executiontimes, model := modelOf n rel dl ex,
              jobexecintervals := ((List.range n).map (jobVar ex)).map some }, ?_, ?_⟩
    · simp [eventsOf, ho, hn]
    · intro k
      rw [← hn]
      exact hk k
  | failed => exact ⟨st, by simp [eventsOf], fun k => by rw [hn]⟩
  | threw => exact ⟨st, by simp [eventsOf], fun k => by rw [hn]⟩

theorem satisfies_modelOf (n : Nat) (rel dl ex : StdMap Int) (s : Assignment) :
    satisfies s (modelOf n rel dl ex) ↔ feasible n rel dl ex s := by
  unfold satisfies modelOf feasible
  constructor
  · intro h
    constructor
    · intro i hi
      have h1 := h (IloConstraint.startGe (jobVar ex i) (rel.get i 0)) (by
        simp only [List.mem_append, List.mem_flatMap, List.mem_range]
        exact Or.inl ⟨i, hi, by simp [jobConstraints]⟩)
      have h2 := h (IloConstraint.endLe (jobVar ex i) (dl.get i 0)) (by
        simp only [List.mem_append, List.mem_flatMap, List.mem_range]
        exact Or.inl ⟨i, hi, by simp [jobConstraints]⟩)
      exact ⟨h1, h2⟩
    · intro i hi j hj hij
      have h3 := h (IloConstraint.noOverlap ((List.range n).map (jobVar ex))) (by simp)
      simp only [IloConstraint.holds, List.pairwise_map] at h3
      have hsymm : Symmetric (fun a b : Nat =>
          before s (jobVar ex a) (jobVar ex b) ∨ before s (jobVar ex b) (jobVar ex a)) :=
        fun a b hab => hab.symm
      exact h3.forall hsymm (List.mem_range.mpr hi) (List.mem_range.mpr hj) hij
  · rintro ⟨h1, h2⟩ c hc
    simp only [List.mem_append, List.mem_flatMap, List.mem_range, List.mem_singleton] at hc
    rcases hc with ⟨i, hi, hc⟩ | hc
    · simp only [jobConstraints, List.mem_cons, List.mem_singleton, List.not_mem_nil,
        or_false] at hc
      rcases hc with hc | hc
      · subst hc
        exact (h1 i hi).1
      · subst hc
        exact (h1 i hi).2
    · subst hc
      simp only [IloConstraint.holds, List.pairwise_map]
      refine (List.nodup_range n).pairwise_of_forall_ne ?_
      intro i hi j hj hij
      exact h2 i (List.mem_range.mp hi) j (List.mem_range.mp hj) hij

/-! ## Packing intervals into a window -/

theorem sum_filter_split (l : List Nat) (d : Nat → Int) (p : Nat → Bool) :
    (l.map d).sum
      = ((l.filter p).map d).sum + ((l.filter (fun i => !p i)).map d).sum := by
  induction l with
  | nil => simp
  | cons x xs ih =>
    by_cases h : p x
    · simp [h, ih]
      omega
    · simp [h, ih]
      omega

theorem packed_sum_le (s d : Nat → Int) :
    ∀ (m : Nat) (l : List Nat) (a b : Int), l.length ≤ m → a ≤ b →
      l.Pairwise (fun i j => s i + d i ≤ s j ∨ s j + d j ≤ s i) →
      (∀ i ∈ l, a ≤ s i ∧ s i + d i ≤ b) →
      (l.map d).sum ≤ b - a := by
  intro m
  induction m with
  | zero =>
    intro l a b hl hab _ _
    have : l = [] := List.length_eq_zero.mp (Nat.le_zero.mp hl)
    subst this
    simp
    omega
  | succ m ih =>
    intro l a b hl hab hp hin
    cases l with
    | nil =>
      simp
      omega
    | cons x xs =>
      rw [List.pairwise_cons] at hp
      obtain ⟨hx, hxs⟩ := hp
      have hxin := hin x (List.mem_cons_self x xs)
      have hlen : xs.length ≤ m := by
        simp only [List.length_cons] at hl
        omega
      have hb := ih (xs.filter (fun j => decide (s j + d j ≤ s x))) a (s x)
        (Nat.le_trans (List.length_filter_le _ _) hlen) hxin.1 (hxs.filter _)
        (by
          intro i hi
          rw [List.mem_filter] at hi
          exact ⟨(hin i (List.mem_cons_of_mem x hi.1)).1, by simpa using hi.2⟩)
      have ha := ih (xs.filter (fun j => !decide (s j + d j ≤ s x))) (s x + d x) b
        (Nat.le_trans (List.length_filter_le _ _) hlen) hxin.2 (hxs.filter _)
        (by
          intro i hi
          rw [List.mem_filter] at hi
          have hnot : ¬ s i + d i ≤ s x := by simpa using hi.2
          refine ⟨?_, (hin i (List.mem_cons_of_mem x hi.1)).2⟩
          rcases hx i hi.1 with h | h
          · exact h
          · exact absurd h hnot)
      have hsplit := sum_filter_split xs d (fun j => decide (s j + d j ≤ s x))
      simp only [List.map_cons, List.sum_cons]
      omega

theorem packed_window (s d : Nat → Int) (l : List Nat) (a b : Int) (hab : a ≤ b)
    (hp : l.Pairwise (fun i j => s i + d i ≤ s j ∨ s j + d j ≤ s i))
    (hin : ∀ i ∈ l, a ≤ s i ∧ s i + d i ≤ b) :
    (l.map d).sum ≤ b - a :=
  packed_sum_le s d l.length l a b (Nat.le_refl _) hab hp hin

/-! ## The claims -/

/-- C1 (validity). For every job set (number of jobs and tables) and every
assignment of start times that satisfies the constraints `main` adds to the
model, every job `i` has `release <= start` and `start + duration <= deadline`,
and for every two distinct jobs the half-open intervals `[start, start+duration)`
have no time point in common. -/
theorem validity (n : Nat) (names : StdMap String) (rel dl ex : StdMap Int)
    (model : List IloConstraint) (s : Assignment)
    (hm : buildModel n names rel dl ex = some model) (hs : satisfies s model) :
    (∀ i, i < n → rel.get i 0 ≤ s i ∧ s i + ex.get i 0 ≤ dl.get i 0) ∧
    (∀ i j, i < n → j < n → i ≠ j → ∀ t : Int,
      ¬ (s i ≤ t ∧ t < s i + ex.get i 0 ∧ s j ≤ t ∧ t < s j + ex.get j 0)) := by
  rw [buildModel_eq] at hm
  cases hm
  obtain ⟨h1, h2⟩ := (satisfies_modelOf n rel dl ex s).mp hs
  refine ⟨h1, ?_⟩
  intro i j hi hj hij t ht
  rcases h2 i hi j hj hij with h | h <;> omega

/-- Witness of C1: the earliest-deadline-first start times on the job set of the
source. -/
theorem validity_witness :
    buildModel nbJobs jobnames releasetimes deadlines executiontimes
      = some (modelOf nbJobs releasetimes deadlines executiontimes) ∧
    satisfies edfStarts (modelOf nbJobs releasetimes deadlines executiontimes) ∧
    (∀ i, i < nbJobs → releasetimes.get i 0 ≤ edfStarts i ∧
      edfStarts i + executiontimes.get i 0 ≤ deadlines.get i 0) ∧
    (∀ i j, i < nbJobs → j < nbJobs → i ≠ j → ∀ t : Int,
      ¬ (edfStarts i ≤ t ∧ t < edfStarts i + executiontimes.get i 0 ∧
         edfStarts j ≤ t ∧ t < edfStarts j + executiontimes.get j 0)) :=
  ⟨by decide, by decide,
    validity nbJobs jobnames releasetimes deadlines executiontimes
      (modelOf nbJobs releasetimes deadlines executiontimes) edfStarts (by decide) (by decide)⟩

/-- C2. For the ten-job instance of the tables `releasetimes`, `deadlines` and
`executiontimes` there is an assignment of integer start times that satisfies
every constraint `main` adds to the model: each job starts at or after its
release and is completed by its deadline, and no two jobs overlap. -/
theorem ten_jobs_schedulable :
    ∃ s : Assignment,
      (∃ model, buildModel nbJobs jobnames releasetimes deadlines executiontimes = some model ∧
        satisfies s model) ∧
      (∀ i, i < nbJobs → releasetimes.get i 0 ≤ s i ∧
        s i + executiontimes.get i 0 ≤ deadlines.get i 0) ∧
      (∀ i, i < nbJobs → ∀ j, j < nbJobs → i ≠ j →
        s i + executiontimes.get i 0 ≤ s j ∨ s j + executiontimes.get j 0 ≤ s i) := by
  have hs : satisfies edfStarts (modelOf nbJobs releasetimes deadlines executiontimes) := by
    decide
  exact ⟨edfStarts, ⟨modelOf nbJobs releasetimes deadlines executiontimes, by decide, hs⟩,
    (satisfies_modelOf nbJobs releasetimes deadlines executiontimes edfStarts).mp hs⟩

/-- C4 (counterexample). The solver reports success, the calls of `cp.getValue`
for `J11`, `J12` and `J13` return and the call for `J14` raises an
`IloException`: the run writes the header, three entries, the name of `J14`
and the handler's line. Three of the ten jobs have an entry: the output is a
schedule with jobs missing. -/
theorem getValue_exception_leaves_entries :
    (∃ g, throwsAtJ14 (modelOf nbJobs releasetimes deadlines executiontimes)
      = IloCPResult.solved g) ∧
    (main throwsAtJ14).map (fun r => printed r.2)
      = some [Line.header, Line.entry "J11" 0, Line.entry "J12" 9, Line.entry "J13" 12,
              Line.unfinished "J14", Line.caught] ∧
    (main throwsAtJ14).map (fun r => entries (printed r.2))
      = some [("J11", 0), ("J12", 9), ("J13", 12)] ∧
    nbJobs = 10 :=
  ⟨⟨_, rfl⟩, rfl, rfl, rfl⟩

/-- C4 (amended). For every solver, `main` runs to its end and calls the solver on
the model. When the solver reports success and every call of `cp.getValue`
returns, the lines written are the header followed by exactly one entry per
enumerator of `enum jobs`, in the order `J11 .. J32`, each with the job's name
and the start time delivered for its interval variable, so there are
`nbJobs = 10` entries with pairwise distinct names. When the solver reports
success and the call of `cp.getValue` for job `k` is the first to raise an
exception, the entries written are those of the `k` jobs before it and the
handler's line comes last. When the solver reports failure the only line written
is the infeasibility signal, and no entry at all; when the solver itself raises
an exception the only line is the handler's. -/
theorem main_output (cp : List IloConstraint → IloCPResult) :
    ∃ model st evs,
      buildModel nbJobs jobnames releasetimes deadlines executiontimes = some model ∧
      main cp = some (st, Event.solve model :: evs) ∧
      match cp model with
      | IloCPResult.solved g =>
        printed evs = Line.header :: entryLines jobnames g enumerators ∧
        (∀ s : Assignment, (∀ j, j ∈ enumerators → g j = some (s j)) →
          printed evs
            = Line.header :: enumerators.map (fun j => Line.entry (jobnames.get j "") (s j)) ∧
          entries (printed evs) =
            [("J11", s J11), ("J12", s J12), ("J13", s J13), ("J14", s J14), ("J15", s J15),
             ("J21", s J21), ("J22", s J22), ("J23", s J23), ("J31", s J31), ("J32", s J32)] ∧
          (entries (printed evs)).length = nbJobs ∧
          ((entries (printed evs)).map Prod.fst).Nodup) ∧
        (∀ k, k < nbJobs → (∀ j, j < k → ∃ x, g j = some x) → g k = none →
          (entries (printed evs)).length = k ∧
          (printed evs).getLast? = some Line.caught)
      | IloCPResult.failed =>
        printed evs = [Line.infeasible] ∧ entries (printed evs) = []
      | IloCPResult.threw =>
        printed evs = [Line.caught] ∧ entries (printed evs) = [] := by
  have hb : addNoOverlap
      (addJobs nbJobs (State.init nbJobs jobnames releasetimes deadlines executiontimes))
      = some { jobnames := jobnames, releasetimes := releasetimes, deadlines := deadlines,
               executiontimes := executiontimes,
               model := modelOf nbJobs releasetimes deadlines executiontimes,
               jobexecintervals := ((List.range nbJobs).map (jobVar executiontimes)).map some } :=
    rfl
  refine ⟨modelOf nbJobs releasetimes deadlines executiontimes, ?_⟩
  unfold main run
  rw [hb]
  simp only
  cases hcp : cp (modelOf nbJobs releasetimes deadlines executiontimes) with
  | solved g =>
    obtain ⟨names1, out1, thrown, hp, ho, _, _⟩ :=
      printJobs_eq nbJobs g executiontimes (List.range nbJobs) jobnames [Line.header]
        (fun i hi => List.mem_range.mp hi)
    simp only [hp]
    have hpr : printed ((if thrown then out1 ++ [Line.caught] else out1).map Event.print)
        = Line.header :: entryLines jobnames g enumerators := by
      rw [printed_map_print, ho]
      rfl
    refine ⟨_, _, by decide, rfl, hpr, ?_, ?_⟩
    · intro s hs
      have hl := entryLines_of_values jobnames g s enumerators hs
      have hnd : (["J11", "J12", "J13", "J14", "J15", "J21", "J22", "J23", "J31", "J32"] :
          List String).Nodup := by decide
      rw [hpr, hl]
      exact ⟨rfl, rfl, rfl, hnd⟩
    · intro k hk hbefore hthrow
      have hsplit : enumerators = List.range k ++ k :: List.range' (k + 1) (nbJobs - k - 1) := by
        unfold nbJobs at hk
        interval_cases k <;> rfl
      obtain ⟨h1, h2⟩ := entryLines_interrupted jobnames g k hthrow
        (List.range' (k + 1) (nbJobs - k - 1)) (List.range k)
        (fun j hj => hbefore j (List.mem_range.mp hj))
      rw [hpr, hsplit]
      refine ⟨?_, ?_⟩
      · simpa [entries] using h1
      · rw [List.getLast?_cons, h2]
        rfl
  | failed => exact ⟨_, _, by decide, rfl, rfl, rfl⟩
  | threw => exact ⟨_, _, by decide, rfl, rfl, rfl⟩

/-- Witness of C4 (amended): the solver reports success and delivers the start
times `edfStarts`; the run writes one entry for each of the ten jobs. -/
theorem main_output_witness :
    ∃ model st evs,
      main solvesEdf = some (st, Event.solve model :: evs) ∧
      entries (printed evs) =
        [("J11", 0), ("J12", 9), ("J13", 12), ("J14", 18), ("J15", 24),
         ("J21", 2), ("J22", 14), ("J23", 26), ("J31", 5), ("J32", 20)] := by
  obtain ⟨model, st, evs, _, hmain, h⟩ := main_output solvesEdf
  have h1 := (h.2.1 edfStarts (by decide)).2.1
  exact ⟨model, st, evs, hmain, h1⟩

/-- C10. Every table lookup in `main` hits an existing entry: `nbJobs` is the
number of enumerators of `enum jobs`; for every `i < nbJobs` the value
`(enum jobs) i` is the `i`-th enumerator and a key of each of `jobnames`,
`releasetimes`, `deadlines` and `executiontimes`, so each `operator[]` call
returns the stored entry and leaves its map as it was; and after a whole run of
`main`, with any solver, the four tables are the tables of the source: no
value-initialised entry was inserted. -/
theorem lookups_hit :
    nbJobs = enumerators.length ∧
    (∀ i, i < nbJobs →
      enumerators[i]? = some i ∧
      i ∈ jobnames.keys ∧ i ∈ releasetimes.keys ∧ i ∈ deadlines.keys ∧
      i ∈ executiontimes.keys ∧
      (some (jobnames.index i "").1 = jobnames.find i ∧
        (jobnames.index i "").2 = jobnames) ∧
      (some (releasetimes.index i 0).1 = releasetimes.find i ∧
        (releasetimes.index i 0).2 = releasetimes) ∧
      (some (deadlines.index i 0).1 = deadlines.find i ∧
        (deadlines.index i 0).2 = deadlines) ∧
      (some (executiontimes.index i 0).1 = executiontimes.find i ∧
        (executiontimes.index i 0).2 = executiontimes)) ∧
    (∀ cp : List IloConstraint → IloCPResult, ∃ st evs,
      main cp = some (st, evs) ∧
      st.jobnames = jobnames ∧ st.releasetimes = releasetimes ∧
      st.deadlines = deadlines ∧ st.executiontimes = executiontimes) := by
  have h1 : ∀ i, i < nbJobs → enumerators[i]? = some i := by decide
  have h2 : ∀ i, i < nbJobs → i ∈ jobnames.keys ∧ i ∈ releasetimes.keys := by decide
  have h3 : ∀ i, i < nbJobs → i ∈ deadlines.keys ∧ i ∈ executiontimes.keys := by decide
  have h4 : ∀ i, i < nbJobs → some (jobnames.index i "").1 = jobnames.find i ∧
      (jobnames.index i "").2 = jobnames := by decide
  have h5 : ∀ i, i < nbJobs → some (releasetimes.index i 0).1 = releasetimes.find i ∧
      (releasetimes.index i 0).2 = releasetimes := by decide
  have h6 : ∀ i, i < nbJobs → some (deadlines.index i 0).1 = deadlines.find i ∧
      (deadlines.index i 0).2 = deadlines := by decide
  have h7 : ∀ i, i < nbJobs → some (executiontimes.index i 0).1 = executiontimes.find i ∧
      (executiontimes.index i 0).2 = executiontimes := by decide
  refine ⟨by decide, fun i hi => ⟨h1 i hi, (h2 i hi).1, (h2 i hi).2, (h3 i hi).1, (h3 i hi).2,
    h4 i hi, h5 i hi, h6 i hi, h7 i hi⟩, ?_⟩
  intro cp
  have hb : addNoOverlap
      (addJobs nbJobs (State.init nbJobs jobnames releasetimes deadlines executiontimes))
      = some { jobnames := jobnames, releasetimes := releasetimes, deadlines := deadlines,
               executiontimes := executiontimes,
               model := modelOf nbJobs releasetimes deadlines executiontimes,
               jobexecintervals := ((List.range nbJobs).map (jobVar executiontimes)).map some } :=
    rfl
  unfold main run
  rw [hb]
  simp only
  cases hcp : cp (modelOf nbJobs releasetimes deadlines executiontimes) with
  | solved g =>
    obtain ⟨names1, out1, thrown, hp, _, _, hn⟩ :=
      printJobs_eq nbJobs g executiontimes (List.range nbJobs) jobnames [Line.header]
        (fun i hi => List.mem_range.mp hi)
    have hnames : names1 = jobnames :=
      hn (fun i hi => (h4 i (List.mem_range.mp hi)).2)
    simp only [hp, hnames]
    exact ⟨_, _, rfl, rfl, rfl, rfl, rfl⟩
  | failed => exact ⟨_, _, rfl, rfl, rfl, rfl, rfl⟩
  | threw => exact ⟨_, _, rfl, rfl, rfl, rfl, rfl⟩

/-- C7. The tables encode the periodic tasks as the header comment describes
them: for `k = 1..5` job `J1k` has release `6(k-1)`, deadline `release + 6` and
execution time `2`; for `k = 1..3` job `J2k` has release `12(k-1)`, deadline
`release + 12` and execution time `3`; for `k = 1..2` job `J3k` has release
`18(k-1)`, deadline `release + 18` and execution time `4`; and every deadline is
at most the hyperperiod `36`. -/
theorem tables_encode_periodic_tasks :
    T1 = ⟨6, 2⟩ ∧ T2 = ⟨12, 3⟩ ∧ T3 = ⟨18, 4⟩ ∧ hyperperiod = 36 ∧
    [job 1 1, job 1 2, job 1 3, job 1 4, job 1 5] = [some J11, some J12, some J13, some J14, some J15] ∧
    [job 2 1, job 2 2, job 2 3] = [some J21, some J22, some J23] ∧
    [job 3 1, job 3 2] = [some J31, some J32] ∧
    (∀ k, 1 ≤ k → k ≤ 5 → ∃ j, job 1 k = some j ∧
      releasetimes.find j = some (6 * ((k : Int) - 1)) ∧
      deadlines.find j = some (6 * ((k : Int) - 1) + 6) ∧
      executiontimes.find j = some 2) ∧
    (∀ k, 1 ≤ k → k ≤ 3 → ∃ j, job 2 k = some j ∧
      releasetimes.find j = some (12 * ((k : Int) - 1)) ∧
      deadlines.find j = some (12 * ((k : Int) - 1) + 12) ∧
      executiontimes.find j = some 3) ∧
    (∀ k, 1 ≤ k → k ≤ 2 → ∃ j, job 3 k = some j ∧
      releasetimes.find j = some (18 * ((k : Int) - 1)) ∧
      deadlines.find j = some (18 * ((k : Int) - 1) + 18) ∧
      executiontimes.find j = some 4) ∧
    (∀ e ∈ deadlines, e.2 ≤ (hyperperiod : Int)) := by
  refine ⟨rfl, rfl, rfl, rfl, by decide, by decide, by decide, ?_, ?_, ?_, by decide⟩
  · intro k h1 h5
    interval_cases k
    · exact ⟨J11, by decide⟩
    · exact ⟨J12, by decide⟩
    · exact ⟨J13, by decide⟩
    · exact ⟨J14, by decide⟩
    · exact ⟨J15, by decide⟩
  · intro k h1 h3
    interval_cases k
    · exact ⟨J21, by decide⟩
    · exact ⟨J22, by decide⟩
    · exact ⟨J23, by decide⟩
  · intro k h1 h2
    interval_cases k
    · exact ⟨J31, by decide⟩
    · exact ⟨J32, by decide⟩

/-- C8 (evaluation of the source at the missing job). The hyperperiod `36` is
the least common multiple of the periods `6`, `12` and `18`, and `30` is a
multiple of the period of `T1` below the hyperperiod; yet no job of `T1`, and no
job at all, has release time `30`: `T1` has five jobs where `36/6 = 6` are
due, and `nbJobs` is `10` where the three tasks have `6 + 3 + 2 = 11` jobs in the
hyperperiod. Every other multiple of a period below the hyperperiod is the
release time of exactly one job of its task. -/
theorem hyperperiod_job_missing :
    Nat.lcm T1.period (Nat.lcm T2.period T3.period) = hyperperiod ∧
    30 % T1.period = 0 ∧ 30 < hyperperiod ∧
    jobsReleasedAt 1 30 = 0 ∧
    (∀ j ∈ enumerators, releasetimes.find j ≠ some 30) ∧
    (jobsOfTask 1).length = 5 ∧ hyperperiod / T1.period = 6 ∧
    nbJobs = 10 ∧
    hyperperiod / T1.period + hyperperiod / T2.period + hyperperiod / T3.period = 11 ∧
    (∀ r, r < hyperperiod → r % T1.period = 0 → r ≠ 30 → jobsReleasedAt 1 r = 1) ∧
    (∀ r, r < hyperperiod → r % T2.period = 0 → jobsReleasedAt 2 r = 1) ∧
    (∀ r, r < hyperperiod → r % T3.period = 0 → jobsReleasedAt 3 r = 1) := by
  refine ⟨by decide, by decide, by decide, by decide, by decide, by decide, by decide,
    by decide, by decide, by decide, by decide, by decide⟩

/-- C5 (overloaded job sets are infeasible). For every job set and every time
window `[a, b]`, `a <= b`: when the durations of the jobs with `release >= a` and
`deadline <= b` add up to more than `b - a`, no assignment of start times
satisfies the model `main` builds. The statement does not need the durations to
be positive. -/
theorem overloaded_window_infeasible (n : Nat) (names : StdMap String)
    (rel dl ex : StdMap Int) (model : List IloConstraint) (a b : Int) (hab : a ≤ b)
    (hm : buildModel n names rel dl ex = some model)
    (hsum : b - a <
      (((List.range n).filter (fun i => decide (a ≤ rel.get i 0 ∧ dl.get i 0 ≤ b))).map
        (fun i => ex.get i 0)).sum) :
    ¬ ∃ s : Assignment, satisfies s model := by
  rw [buildModel_eq] at hm
  cases hm
  rintro ⟨s, hs⟩
  obtain ⟨h1, h2⟩ := (satisfies_modelOf n rel dl ex s).mp hs
  have hp : ((List.range n).filter
      (fun i => decide (a ≤ rel.get i 0 ∧ dl.get i 0 ≤ b))).Pairwise
      (fun i j => s i + ex.get i 0 ≤ s j ∨ s j + ex.get j 0 ≤ s i) := by
    refine List.Pairwise.filter _ ?_
    refine (List.nodup_range n).pairwise_of_forall_ne ?_
    intro i hi j hj hij
    exact h2 i (List.mem_range.mp hi) j (List.mem_range.mp hj) hij
  have hle := packed_window s (fun i => ex.get i 0) _ a b hab hp (by
    intro i hi
    rw [List.mem_filter] at hi
    have hi1 := List.mem_range.mp hi.1
    have hw : a ≤ rel.get i 0 ∧ dl.get i 0 ≤ b := by simpa using hi.2
    have := h1 i hi1
    refine ⟨by omega, ?_⟩
    show s i + ex.get i 0 ≤ b
    omega)
  omega

/-- Witness of C5: the spec's boundary case, two jobs with release `0`, deadline
`2` and duration `2` in the window `[0, 2]`. -/
theorem overloaded_window_infeasible_witness :
    (0 : Int) ≤ 2 ∧
    buildModel 2 twoJobsNames twoJobsRelease twoJobsDeadline twoJobsExecution
      = some (modelOf 2 twoJobsRelease twoJobsDeadline twoJobsExecution) ∧
    (((List.range 2).filter (fun i =>
        decide ((0 : Int) ≤ twoJobsRelease.get i 0 ∧ twoJobsDeadline.get i 0 ≤ 2))).map
      (fun i => twoJobsExecution.get i 0)).sum = 4 ∧
    ¬ ∃ s : Assignment,
      satisfies s (modelOf 2 twoJobsRelease twoJobsDeadline twoJobsExecution) :=
  ⟨by decide, by decide, by decide,
    overloaded_window_infeasible 2 twoJobsNames twoJobsRelease twoJobsDeadline twoJobsExecution
      (modelOf 2 twoJobsRelease twoJobsDeadline twoJobsExecution) 0 2 (by decide) (by decide)
      (by decide)⟩

/-- C6 (counterexample). The spec's boundary case, a single job with release `5`,
deadline `5` and duration `1`, so `release + duration > deadline`: `main` does not
reject it. The job's constraints are added to the model, the solver is called on
that model, and with the solver answering `false` the run ends with the ordinary
line `Infeasible.`. -/
theorem invalid_job_not_rejected :
    oneJobDeadline.get 0 0 < oneJobRelease.get 0 0 + oneJobExecution.get 0 0 ∧
    (run 1 oneJobNames oneJobRelease oneJobDeadline oneJobExecution alwaysFails).map Prod.snd
      = some [Event.solve [IloConstraint.startGe ⟨0, 1⟩ 5, IloConstraint.endLe ⟨0, 1⟩ 5,
                IloConstraint.noOverlap [⟨0, 1⟩]],
              Event.print Line.infeasible] := by
  constructor
  · decide
  · rfl

/-- C6 (amended). `main` has no validation step and no `InvalidJob` outcome. For
every job set with a job `i` whose `release + duration > deadline`, and every
solver: the release and deadline constraints of job `i` are in the model like
those of any other job, the run calls the solver on that model and then writes
what the solver's answer selects, the model has no solution, and when the solver
answers `false` the only line written is the ordinary `Infeasible.`. -/
theorem invalid_job_reaches_solver (n : Nat) (names : StdMap String)
    (rel dl ex : StdMap Int) (cp : List IloConstraint → IloCPResult) (i : Nat)
    (hi : i < n) (hbad : dl.get i 0 < rel.get i 0 + ex.get i 0) :
    ∃ model st,
      buildModel n names rel dl ex = some model ∧
      IloConstraint.startGe ⟨i, ex.get i 0⟩ (rel.get i 0) ∈ model ∧
      IloConstraint.endLe ⟨i, ex.get i 0⟩ (dl.get i 0) ∈ model ∧
      run n names rel dl ex cp = some (st, eventsOf n names model (cp model)) ∧
      (¬ ∃ s : Assignment, satisfies s model) ∧
      (cp model = IloCPResult.failed →
        printed (eventsOf n names model (cp model)) = [Line.infeasible]) := by
  obtain ⟨st, hrun, _⟩ := run_eq n names rel dl ex cp
  refine ⟨modelOf n rel dl ex, st, buildModel_eq n names rel dl ex, ?_, ?_, hrun, ?_, ?_⟩
  · simp only [modelOf, List.mem_append, List.mem_flatMap, List.mem_range]
    exact Or.inl ⟨i, hi, by simp [jobConstraints, jobVar]⟩
  · simp only [modelOf, List.mem_append, List.mem_flatMap, List.mem_range]
    exact Or.inl ⟨i, hi, by simp [jobConstraints, jobVar]⟩
  · rintro ⟨s, hs⟩
    have h := ((satisfies_modelOf n rel dl ex s).mp hs).1 i hi
    omega
  · intro hcp
    rw [hcp]
    rfl

/-- Witness of C6 (amended): the single job with release `5`, deadline `5` and
duration `1`, with a solver that answers `false`. -/
theorem invalid_job_reaches_solver_witness :
    (0 < 1 ∧ oneJobDeadline.get 0 0 < oneJobRelease.get 0 0 + oneJobExecution.get 0 0) ∧
    ∃ model st,
      buildModel 1 oneJobNames oneJobRelease oneJobDeadline oneJobExecution = some model ∧
      IloConstraint.startGe ⟨0, oneJobExecution.get 0 0⟩ (oneJobRelease.get 0 0) ∈ model ∧
      IloConstraint.endLe ⟨0, oneJobExecution.get 0 0⟩ (oneJobDeadline.get 0 0) ∈ model ∧
      run 1 oneJobNames oneJobRelease oneJobDeadline oneJobExecution alwaysFails
        = some (st, eventsOf 1 oneJobNames model (alwaysFails model)) ∧
      (¬ ∃ s : Assignment, satisfies s model) ∧
      (alwaysFails model = IloCPResult.failed →
        printed (eventsOf 1 oneJobNames model (alwaysFails model)) = [Line.infeasible]) :=
  ⟨⟨by decide, by decide⟩,
    invalid_job_reaches_solver 1 oneJobNames oneJobRelease oneJobDeadline oneJobExecution
      alwaysFails 0 (by decide) (by decide)⟩

/-- C9 (counterexample). Jobs A and B of duration `2`, A with bounds `[5, 5]` and
B with bounds `[0, 0]`: the test `earliest_start(A) + duration(A) > latest_start(B)`
holds, and the start times B at `0`, A at `5` lie within the bounds and satisfy
the no-overlap constraint; yet A does not precede B, and the propagated domain of
B, `[7, 0]`, no longer admits the start time of B: the deduction removes a
solution. -/
theorem pairwise_deduction_unsound :
    jobA.id ≠ jobB.id ∧ 0 < jobA.size ∧ 0 < jobB.size ∧
    exceeds jobA ⟨5, 5⟩ ⟨0, 0⟩ ∧
    Domain.admits ⟨5, 5⟩ (IloStartOf startsBA jobA) ∧
    Domain.admits ⟨0, 0⟩ (IloStartOf startsBA jobB) ∧
    (IloConstraint.noOverlap [jobA, jobB]).holds startsBA ∧
    ¬ before startsBA jobA jobB ∧
    (propagatePrecedes jobA ⟨5, 5⟩ ⟨0, 0⟩).2 = ⟨7, 0⟩ ∧
    ¬ (propagatePrecedes jobA ⟨5, 5⟩ ⟨0, 0⟩).2.admits (IloStartOf startsBA jobB) := by
  decide

/-- C9 (amended). For every two jobs A and B with start bounds `da` and `db`: if
`earliest_start(B) + duration(B) > latest_start(A)`, then the order "B before A"
is infeasible, that is, every assignment of start times within the bounds that
satisfies the no-overlap constraint has A preceding B; and the propagated
domains, `latest_start(A) = min(latest_start(A), latest_start(B) - duration(A))`
and `earliest_start(B) = max(earliest_start(B), earliest_start(A) + duration(A))`,
still admit the start times: no solution is removed. Neither distinctness of the
jobs nor positive durations are needed. -/
theorem pairwise_deduction_sound (a b : IloIntervalVar) (da db : Domain) (s : Assignment)
    (hcond : exceeds b db da)
    (ha : da.admits (IloStartOf s a)) (hb : db.admits (IloStartOf s b))
    (hno : (IloConstraint.noOverlap [a, b]).holds s) :
    ¬ before s b a ∧ before s a b ∧
    (propagatePrecedes a da db).1.admits (IloStartOf s a) ∧
    (propagatePrecedes a da db).2.admits (IloStartOf s b) := by
  simp only [IloConstraint.holds, List.pairwise_cons, List.mem_singleton, forall_eq,
    List.not_mem_nil, false_implies, implies_true, List.Pairwise.nil, and_true] at hno
  simp only [exceeds, Domain.admits, before, IloStartOf, IloEndOf, propagatePrecedes] at *
  have hnb : ¬ s b.id + b.size ≤ s a.id := by omega
  have hab : s a.id + a.size ≤ s b.id := by
    rcases hno with h | h
    · exact h
    · exact absurd h hnb
  refine ⟨hnb, hab, ⟨by omega, ?_⟩, ⟨?_, by omega⟩⟩
  · exact le_min (by omega) (by omega)
  · exact max_le (by omega) (by omega)

/-- Witness of C9 (amended): jobs A and B of duration `2`, A with bounds `[0, 0]`
and B with bounds `[5, 5]`, started at `0` and `5`. -/
theorem pairwise_deduction_sound_witness :
    (exceeds jobB ⟨5, 5⟩ ⟨0, 0⟩ ∧
      Domain.admits ⟨0, 0⟩ (IloStartOf startsAB jobA) ∧
      Domain.admits ⟨5, 5⟩ (IloStartOf startsAB jobB) ∧
      (IloConstraint.noOverlap [jobA, jobB]).holds startsAB) ∧
    (¬ before startsAB jobB jobA ∧ before startsAB jobA jobB ∧
      (propagatePrecedes jobA ⟨0, 0⟩ ⟨5, 5⟩).1.admits (IloStartOf startsAB jobA) ∧
      (propagatePrecedes jobA ⟨0, 0⟩ ⟨5, 5⟩).2.admits (IloStartOf startsAB jobB)) :=
  ⟨by decide,
    pairwise_deduction_sound jobA jobB ⟨0, 0⟩ ⟨5, 5⟩ startsAB (by decide) (by decide)
      (by decide) (by decide)⟩

end ClockDrivenSchedulingCP
